import Mathlib

/-!
Verification development for the NotionSync repository.

This file gives a shallow embedding of the algorithmic core of the repository
(`time_blocker.py` and `canvas_notion_calendar_db_v1.py`) and proves or refutes
the specification claims about it.

Modelling conventions:
- Timestamps are integers counting seconds; calendar days are integers counting
  days (`dayOf t = t.fdiv 86400` mirrors taking the date part of a datetime).
- Weekdays are `(d % 7).toNat`, i.e. the model's day 0 is a Monday so that
  Python's `date.weekday()` arithmetic is reproduced exactly.
- Network traffic is modelled by oracles passed as function arguments: the
  course-list / page-prefetch results are `Option`-valued (with `none` for a
  request failure where the code branches on one), and the per-page responses
  used only for logging are assumed delivered.
- Python `or`-chains over optional strings are modelled with `Option`:
  `none` stands for an absent, `None`, or empty (falsy) value.
-/

namespace NotionSync

/-! ## Model of `time_blocker.py` -/

/-- Number of seconds in a day. -/
def secPerDay : Int := 86400

/-- Calendar day of a timestamp, mirroring taking the `.date()` of a datetime
(floor division, so times before the epoch land on negative days just as
Python dates do). -/
def dayOf (t : Int) : Int := t.fdiv secPerDay

/-- Python `date.weekday()` for a model day (day 0 is a Monday). -/
def weekdayOf (d : Int) : Nat := (d % 7).toNat

/-- One availability window within a day, in seconds from midnight, as parsed
by `parse_time_str` from an "HH:MM" string. -/
structure Window where
  wstart : Nat
  wend : Nat
deriving Repr, DecidableEq

/-- The per-day list of already scheduled `(start, end)` intervals, in absolute
seconds: one entry of `scheduled_on_day`. -/
abbrev DaySched := List (Int × Int)

/-- The overlap test of `find_slot_for_block` against one scheduled interval:
`not (candidate_end <= s or candidate_start >= e)`. -/
def overlapsB (cs ce : Int) (iv : Int × Int) : Bool :=
  !(decide (ce ≤ iv.1) || decide (cs ≥ iv.2))

/-- Overlap test against every interval already scheduled on the day. -/
def anyOverlapB (cs ce : Int) (sched : DaySched) : Bool :=
  sched.any (overlapsB cs ce)

/-- Total minutes already scheduled on a day:
`sum(int((e-s).total_seconds()/60) for s,e in day_sched)` (all scheduled
intervals have nonnegative length, so truncating and flooring agree). -/
def schedMinutes (sched : DaySched) : Int :=
  (sched.map (fun iv => (iv.2 - iv.1) / 60)).sum

/-- Python truthiness of the `daily_max_minutes` argument
(`if daily_max_minutes:`): `None` and `0` are falsy. -/
def dmActive : Option Int → Bool
  | none => false
  | some m => decide (m ≠ 0)

/-- Whether placing one more block of `blockMin` minutes would push the day
over the daily cap.  Evaluated once per candidate day since it does not depend
on the candidate position. -/
def dailyExceeded (dailyMax : Option Int) (sched : DaySched) (blockMin : Int) : Bool :=
  dmActive dailyMax &&
    (match dailyMax with
     | none => false
     | some m => decide (schedMinutes sched + blockMin > m))

/-- The inner sliding loop of `find_slot_for_block`: starting from `candEnd`,
slide the candidate `blockSec`-second block earlier in 15-minute-free steps
(actually by whole block lengths, as the code does) while it overlaps an
existing interval or the daily cap is hit, for at most `fuel` (= 48) attempts,
never starting before `wStartAbs`. -/
def tryFit (wStartAbs : Int) (blockSec : Int) (sched : DaySched) (dmEx : Bool) :
    Nat → Int → Option (Int × Int)
  | 0, _ => none
  | fuel + 1, candEnd =>
    let candStart := candEnd - blockSec
    if candStart ≥ wStartAbs then
      if anyOverlapB candStart candEnd sched || dmEx then
        tryFit wStartAbs blockSec sched dmEx fuel candStart
      else
        some (candStart, candEnd)
    else
      none

/-- Try each window of the day (the caller passes them already reversed, as in
`for w_start, w_end in reversed(windows)`).  `latest_end` is
`min(w_end_dt, datetime.combine(d, time(23,59,59)))`. -/
def tryWindows (d : Int) (sched : DaySched) (blockMinutes : Nat) (dmEx : Bool) :
    List Window → Option (Int × Int)
  | [] => none
  | w :: rest =>
    let wStartAbs := d * secPerDay + (w.wstart : Int)
    let latestEnd := d * secPerDay + min (w.wend : Int) 86399
    match tryFit wStartAbs ((blockMinutes : Int) * 60) sched dmEx 48 latestEnd with
    | some slot => some slot
    | none => tryWindows d sched blockMinutes dmEx rest

/-- The day-by-day walk of `find_slot_for_block`: day `d`, then `d - 1`, … for
`remaining` days in total (31 days: `days_back` 0..30). -/
def findSlotFrom (wBy : Nat → List Window) (onDay : Int → DaySched)
    (blockMinutes : Nat) (dailyMax : Option Int) : Int → Nat → Option (Int × Int)
  | _, 0 => none
  | d, remaining + 1 =>
    let sched := onDay d
    match tryWindows d sched blockMinutes (dailyExceeded dailyMax sched (blockMinutes : Int))
        ((wBy (weekdayOf d)).reverse) with
    | some slot => some slot
    | none => findSlotFrom wBy onDay blockMinutes dailyMax (d - 1) remaining

/-- Model of `find_slot_for_block`. -/
def findSlotForBlock (wBy : Nat → List Window) (onDay : Int → DaySched)
    (targetDate : Int) (blockMinutes : Nat) (dailyMax : Option Int) : Option (Int × Int) :=
  findSlotFrom wBy onDay blockMinutes dailyMax targetDate 31

/-- Assignment record as consumed by `schedule_blocks`.  Date fields are
already-parsed values (`none` models an absent/falsy or unparseable value,
both of which the code treats as "no date" for this component). -/
structure TAssignment where
  name : String
  description : String
  priority : String
  dueDate : Option Int
  dueAt : Option Int
  lockAt : Option Int
  createdAt : Option Int
  quizId : Bool
  submissionTypes : List String
  pointsPossible : Option Int
  estimatedMinutes : Option Int
  courseName : String
  htmlUrl : String
deriving Repr

/-- Effective due day: explicit `due_date`, else the date part of the first
value in the `due_at or lock_at or created_at` chain. -/
def effDueDay (a : TAssignment) : Option Int :=
  match a.dueDate with
  | some d => some d
  | none => (a.dueAt.orElse fun _ => (a.lockAt.orElse fun _ => a.createdAt)).map dayOf

/-- ASCII lower-casing of a character (`str.lower()`; all texts the claims
exercise are ASCII). -/
def lowerChar (c : Char) : Char :=
  if 65 ≤ c.toNat ∧ c.toNat ≤ 90 then Char.ofNat (c.toNat + 32) else c

/-- Lower-cased character list of a string. -/
def lowerStr (s : String) : List Char :=
  s.data.map lowerChar

/-- Whether `pat` is a prefix of `hay` (character lists). -/
def isPrefixCL : List Char → List Char → Bool
  | [], _ => true
  | _ :: _, [] => false
  | a :: as, b :: bs => a == b && isPrefixCL as bs

/-- Whether `pat` occurs as a contiguous substring of `hay` (Python `in`). -/
def containsCL (pat : List Char) : List Char → Bool
  | [] => isPrefixCL pat []
  | hay@(_ :: rest) => isPrefixCL pat hay || containsCL pat rest

/-- Substring test between strings, case-insensitively on the haystack side
only when the caller lowers it first. -/
def containsSub (hay pat : String) : Bool :=
  containsCL pat.data hay.data

/-- `is_quiz`: a truthy `quiz_id` or any submission type containing "quiz"
(the "online_quiz" disjunct is subsumed by substring containment). -/
def isQuizA (a : TAssignment) : Bool :=
  a.quizId || a.submissionTypes.any (fun s => containsCL "quiz".data (lowerStr s))

/-- `is_on_paper`: any submission type containing "on_paper" or "in_class"
(the equality disjunct is subsumed). -/
def isOnPaperA (a : TAssignment) : Bool :=
  a.submissionTypes.any (fun s =>
    containsCL "on_paper".data (lowerStr s) || containsCL "in_class".data (lowerStr s))

/-- Points at or below the low-points threshold (`points is not None and
points <= low_points_threshold`). -/
def pointsLE (a : TAssignment) (threshold : Int) : Bool :=
  match a.pointsPossible with
  | none => false
  | some p => decide (p ≤ threshold)

/-- Join character lists with a single space (Python `' '.join(...)`). -/
def joinSpaceCL : List (List Char) → List Char
  | [] => []
  | [x] => x
  | x :: xs => x ++ ' ' :: joinSpaceCL xs

/-- `text_check`: name and description (dropping empty parts, as
`filter(None, ...)` does), space-joined and lower-cased. -/
def textCheck (a : TAssignment) : List Char :=
  joinSpaceCL (([a.name, a.description].filter (fun s => s ≠ "")).map lowerStr)

/-- The high-priority keyword list of the scoring system. -/
def highPriorityKeywords : List String :=
  ["final exam", "final project", "midterm exam", "midterm project",
   "capstone", "thesis", "dissertation", "comprehensive",
   "examen final", "proyecto final", "examen parcial", "parcial",
   "tesis", "trabajo final"]

/-- The medium-priority keyword list of the scoring system. -/
def mediumPriorityKeywords : List String :=
  ["exam", "project", "paper", "essay", "presentation", "report",
   "portfolio", "research", "analysis", "proposal",
   "examen", "proyecto", "ensayo", "presentación", "presentacion",
   "informe", "reporte", "investigación", "investigacion",
   "análisis", "analisis", "propuesta", "trabajo"]

/-- The low-priority keyword list of the scoring system. -/
def lowPriorityKeywords : List String :=
  ["review", "study guide", "practice", "prep", "preparation",
   "draft", "outline", "summary", "notes",
   "repaso", "guía de estudio", "guia de estudio", "práctica", "practica",
   "preparación", "preparacion", "borrador", "esquema", "resumen", "notas"]

/-- Keyword bonus in quarter points: only the highest matching tier applies
(+2.0, +1.5, +0.5 become 8, 6, 2 quarters). -/
def keywordBonus4 (a : TAssignment) : Nat :=
  let text := textCheck a
  if highPriorityKeywords.any (fun kw => containsCL kw.data text) then 8
  else if mediumPriorityKeywords.any (fun kw => containsCL kw.data text) then 6
  else if lowPriorityKeywords.any (fun kw => containsCL kw.data text) then 2
  else 0

/-- Points-tier bonus in quarter points (+2.5/+1.5/+1.0/+0.5 become
10/6/4/2 quarters). -/
def pointsBonus4 (a : TAssignment) : Nat :=
  match a.pointsPossible with
  | none => 0
  | some p =>
    if p ≥ 100 then 10 else if p ≥ 50 then 6 else if p ≥ 25 then 4
    else if p ≥ 10 then 2 else 0

/-- Joined lower-cased submission-type string used for the upload check. -/
def submissionStr (a : TAssignment) : List Char :=
  joinSpaceCL (a.submissionTypes.map lowerStr)

/-- File-upload bonus in quarter points (+0.5 = 2 quarters). -/
def uploadBonus4 (a : TAssignment) : Nat :=
  if containsCL "file_upload".data (submissionStr a)
      || containsCL "online_upload".data (submissionStr a) then 2 else 0

/-- Explicit priority-field bonus in quarter points (+1.5 / +0.75 become
6 / 3 quarters). -/
def priorityBonus4 (a : TAssignment) : Nat :=
  let pr := lowerStr a.priority
  if ["high", "urgent", "exam", "final", "midterm", "critical"].any
      (fun s => pr == s.data) then 6
  else if ["medium", "important"].any (fun s => pr == s.data) then 3
  else 0

/-- Urgency bonus in quarter points from days until due
(+1.5 / +1.0 / +0.5 become 6 / 4 / 2 quarters). -/
def urgencyBonus4 (due today : Int) : Nat :=
  if due - today ≤ 1 then 6 else if due - today ≤ 3 then 4
  else if due - today ≤ 7 then 2 else 0

/-- Name-length bonus in quarter points (+0.25 = 1 quarter for names over
50 characters). -/
def nameLenBonus4 (a : TAssignment) : Nat :=
  if a.name.data.length > 50 then 1 else 0

/-- The full priority score in quarter points, starting from the base 1.0
(= 4 quarters).  Every bonus in the code is a multiple of 0.25 so the float
arithmetic is exact and this integer encoding is faithful. -/
def score4 (a : TAssignment) (due today : Int) : Nat :=
  4 + pointsBonus4 a + (if isOnPaperA a then 8 else 0) + uploadBonus4 a
    + priorityBonus4 a + keywordBonus4 a + urgencyBonus4 due today + nameLenBonus4 a

/-- Python `round()` (round half to even) applied to an exact quarter-point
value `n/4`. -/
def pyRound4 (n : Nat) : Nat :=
  let q := n / 4
  match n % 4 with
  | 0 => q
  | 1 => q
  | 3 => q + 1
  | _ => if q % 2 = 0 then q else q + 1

/-- Number of blocks allocated to an assignment: the estimated-minutes
shortcut `max(1, min(max_blocks, ceil(est/block_minutes)))` when a positive
estimate exists, else `int(min(max(1, round(score)), max_blocks))`. -/
def nBlocksFor (a : TAssignment) (due today : Int) (blockMinutes maxBlocks : Nat) : Nat :=
  match a.estimatedMinutes with
  | some est =>
    if est > 0 then max 1 (min maxBlocks ((est.toNat + blockMinutes - 1) / blockMinutes))
    else min (max 1 (pyRound4 (score4 a due today))) maxBlocks
  | none => min (max 1 (pyRound4 (score4 a due today))) maxBlocks

/-- One scheduled study block.  `viaFallback` is a ghost flag recording
whether the block came from the force-placement fallback path (the dict the
code emits has no such key; it is needed to state the no-overlap claim). -/
structure SBlock where
  name : String
  bstart : Int
  bend : Int
  course : String
  url : String
  duration : Nat
  description : String
  points : Option Int
  totalBlocks : Nat
  blockNum : Nat
  dueDay : Int
  viaFallback : Bool
deriving Repr

/-- The running state of `schedule_blocks`: the output list and the
per-day interval map `scheduled_on_day`. -/
structure PlanState where
  scheduled : List SBlock
  onDay : Int → DaySched

/-- Append a block to the state, registering its interval under the calendar
day of its start (`day_key = date.fromisoformat(s.split('T')[0])`). -/
def addBlock (st : PlanState) (b : SBlock) : PlanState :=
  ⟨st.scheduled ++ [b],
   fun d => if d = dayOf b.bstart then st.onDay d ++ [(b.bstart, b.bend)] else st.onDay d⟩

/-- Place the `i`-th of `nb` blocks for one assignment: use the found slot,
or fall back to force-placement ending `tbm * (nb - i - 1)` minutes before
18:00 on the due day. -/
def placeOne (wBy : Nat → List Window) (dailyMax : Option Int) (st : PlanState)
    (a : TAssignment) (due : Int) (nb i tbm : Nat) : PlanState :=
  match findSlotForBlock wBy st.onDay due tbm dailyMax with
  | some (s, e) =>
    addBlock st ⟨a.name, s, e, a.courseName, a.htmlUrl, tbm, a.description,
      a.pointsPossible, nb, i + 1, due, false⟩
  | none =>
    let s : Int := due * secPerDay + 64800 - (tbm : Int) * ((nb - i - 1 : Nat) : Int) * 60
    addBlock st ⟨a.name, s, s + (tbm : Int) * 60, a.courseName, a.htmlUrl, tbm,
      a.description, a.pointsPossible, nb, i + 1, due, true⟩

/-- The `for i in range(n_blocks)` placement loop; `k` counts the remaining
iterations, so the current index is `nb - k`. -/
def placeLoop (wBy : Nat → List Window) (dailyMax : Option Int) (a : TAssignment)
    (due : Int) (nb tbm : Nat) : Nat → PlanState → PlanState
  | 0, st => st
  | k + 1, st =>
    placeLoop wBy dailyMax a due nb tbm k (placeOne wBy dailyMax st a due nb (nb - (k + 1)) tbm)

/-- Process one filtered `(due day, assignment)` pair: skip trivial low-point
quizzes unless included, pick the (possibly shortened) block length, and run
the placement loop. -/
def processAssignment (wBy : Nat → List Window) (dailyMax : Option Int)
    (includeShortQuizzes : Bool) (lowPointsThreshold : Int)
    (shortQuizMinutes blockMinutes maxBlocks : Nat) (today : Int)
    (st : PlanState) (p : Int × TAssignment) : PlanState :=
  let due := p.1
  let a := p.2
  if isQuizA a && pointsLE a lowPointsThreshold && !includeShortQuizzes then st
  else
    let tbm := if isQuizA a && pointsLE a lowPointsThreshold && includeShortQuizzes
      then shortQuizMinutes else blockMinutes
    placeLoop wBy dailyMax a due (nBlocksFor a due today blockMinutes maxBlocks) tbm
      (nBlocksFor a due today blockMinutes maxBlocks) st

/-- The date filter of `schedule_blocks`: keep assignments with a resolvable
effective date between today and fourteen days out (inclusive). -/
def filterAssignments (assignments : List TAssignment) (today : Int) :
    List (Int × TAssignment) :=
  assignments.filterMap fun a =>
    match effDueDay a with
    | none => none
    | some d => if today ≤ d ∧ d ≤ today + 14 then some (d, a) else none

/-- Stable insertion by due day: a new element goes before strictly later
elements only, so the result coincides with Python's stable `list.sort`. -/
def insertByDue (x : Int × TAssignment) : List (Int × TAssignment) → List (Int × TAssignment)
  | [] => [x]
  | y :: ys => if x.1 ≤ y.1 then x :: y :: ys else y :: insertByDue x ys

/-- Stable sort of the filtered assignments by due day ascending. -/
def sortByDue : List (Int × TAssignment) → List (Int × TAssignment)
  | [] => []
  | x :: xs => insertByDue x (sortByDue xs)

/-- Model of `schedule_blocks`.  `wBy` is the parsed weekly availability
(`build_weekly_windows` output, weekday → windows); `today` is
`date.today()`. -/
def scheduleBlocks (assignments : List TAssignment) (wBy : Nat → List Window)
    (today : Int) (blockMinutes : Nat) (dailyMax : Option Int)
    (includeShortQuizzes : Bool) (lowPointsThreshold : Int)
    (shortQuizMinutes maxBlocks : Nat) : List SBlock :=
  ((sortByDue (filterAssignments assignments today)).foldl
    (processAssignment wBy dailyMax includeShortQuizzes lowPointsThreshold
      shortQuizMinutes blockMinutes maxBlocks today)
    ⟨[], fun _ => []⟩).scheduled


/-- Two half-open `[start, end)` intervals do not overlap. -/
def disjointIv (x y : Int × Int) : Prop := x.2 ≤ y.1 ∨ y.2 ≤ x.1

instance (x y : Int × Int) : Decidable (disjointIv x y) :=
  inferInstanceAs (Decidable (_ ∨ _))

/-- The `[start, end)` interval of a scheduled block. -/
def ivOf (b : SBlock) : Int × Int := (b.bstart, b.bend)

/-- State invariant: the per-day map holds exactly the intervals of the
blocks whose start lies on that day, in placement order. -/
def daysTrack (st : PlanState) : Prop :=
  ∀ dd : Int, st.onDay dd =
    (st.scheduled.filter (fun b => dayOf b.bstart == dd)).map ivOf

/-- State invariant: every per-day interval list is pairwise non-overlapping. -/
def noOverlapDays (st : PlanState) : Prop :=
  ∀ dd : Int, (st.onDay dd).Pairwise disjointIv

/-! ## Model of `canvas_notion_calendar_db_v1.py` -/

/-- A raw assignment as returned by the source API, with the fields the
pipeline reads.  `none` models an absent key (defaults then apply). -/
structure RawAssignment where
  rid : Int
  name : Option String
  dueAt : Option String
  lockAt : Option String
  createdAt : Option String
  description : Option String
  htmlUrl : Option String
  courseName : Option String
deriving Repr, DecidableEq

/-- The dict literal built for each kept raw assignment in
`get_canvas_assignments`: an association list mirroring the JSON object (note
the absence of an `id` key). -/
def mkFinalEntry (r : RawAssignment) : List (String × Option String) :=
  [("name", some (r.name.getD "Unnamed Assignment")),
   ("due_at", r.dueAt),
   ("lock_at", r.lockAt),
   ("created_at", r.createdAt),
   ("description", some (r.description.getD "")),
   ("html_url", some (r.htmlUrl.getD "")),
   ("course_name", some (r.courseName.getD "Unknown Course"))]

/-- The de-duplication loop of `get_canvas_assignments`: keep a raw record
only when its `id` has not been seen yet (`seen` plays the role of
`fetched_assignment_ids`). -/
def dedupRaw (seen : List Int) : List RawAssignment → List RawAssignment
  | [] => []
  | r :: rest =>
    if r.rid ∈ seen then dedupRaw seen rest
    else r :: dedupRaw (r.rid :: seen) rest

/-- The final list `get_canvas_assignments` builds from the merged raw list. -/
def canvasFinalList (raws : List RawAssignment) : List (List (String × Option String)) :=
  (dedupRaw [] raws).map mkFinalEntry

/-- Merge of one course's bucket fetches in `_fetch_assignments_for_course`:
a failed bucket request (`none`) is caught, logged and skipped. -/
def fetchCourse (buckets : List (Option (List RawAssignment))) : List RawAssignment :=
  (buckets.map (fun b => b.getD [])).flatten

/-- Model of `get_canvas_assignments`.  `courses?` is the top-level
course-list request: `none` for a hard request failure, otherwise the bucket
responses of each course.  `hasCallback` records whether the caller supplied a
`status_callback`: the top-level `except` branch re-raises only when it did
not (`if status_callback: ... else: raise`). -/
def getCanvasAssignments (hasCallback : Bool)
    (courses? : Option (List (List (Option (List RawAssignment))))) :
    Except Unit (List (List (String × Option String))) :=
  match courses? with
  | none => if hasCallback then .ok [] else .error ()
  | some courses => .ok (canvasFinalList ((courses.map fetchCourse).flatten))

/-- A present date string for the sync engine: either unparseable
(`ValueError` in `datetime.fromisoformat`) or a parsed timestamp. -/
inductive DateStr where
  | bad
  | good (t : Int)
deriving Repr, DecidableEq

/-- An assignment as consumed by `add_to_notion`. -/
structure NAssignment where
  name : String
  dueAt : Option DateStr
  lockAt : Option DateStr
  createdAt : Option DateStr
  description : String
  htmlUrl : String
  courseName : String
deriving Repr

/-- The `due_at or lock_at or created_at` truthiness chain. -/
def effDateChain (a : NAssignment) : Option DateStr :=
  a.dueAt.orElse fun _ => (a.lockAt.orElse fun _ => a.createdAt)

/-- `due_date_iso` as a calendar day: the date part of the parsed chain value,
`none` when the chain is empty or its first value does not parse. -/
def effDateIso (a : NAssignment) : Option Int :=
  match effDateChain a with
  | some (.good t) => some (dayOf t)
  | _ => none

/-- ASCII whitespace test used to model Python `str.strip()`. -/
def isSpaceChar (c : Char) : Bool :=
  c == ' ' || c == '\t' || c == '\n' || c == '\r' || c == '\x0b' || c == '\x0c'

/-- Drop the remainder of an HTML tag: given the characters after a `<`,
consume one or more non-`>` characters and a closing `>` (the regex
`<[^>]+>`), returning the rest, or `none` when there is no match here. -/
def dropTagAux : List Char → Option (List Char)
  | [] => none
  | '>' :: rest => some rest
  | _ :: rest => dropTagAux rest

/-- Tag matcher at a `<`: the body must be nonempty, so an immediate `>` is
not a match. -/
def dropTag : List Char → Option (List Char)
  | [] => none
  | '>' :: _ => none
  | _ :: rest => dropTagAux rest

/-- Fuelled left-to-right scan of `re.sub(r'<[^>]+>', '', text)`: each step
consumes at least one character, so fuel equal to the input length is exact. -/
def stripTagsF : Nat → List Char → List Char
  | 0, l => l
  | fuel + 1, l =>
    match l with
    | [] => []
    | c :: rest =>
      if c = '<' then
        match dropTag rest with
        | some rem => stripTagsF fuel rem
        | none => c :: stripTagsF fuel rest
      else c :: stripTagsF fuel rest

/-- Remove the HTML tags of a character list. -/
def stripTags (l : List Char) : List Char :=
  stripTagsF l.length l

/-- Python `str.strip()` on a character list (ASCII whitespace). -/
def stripEnds (l : List Char) : List Char :=
  ((l.dropWhile isSpaceChar).reverse.dropWhile isSpaceChar).reverse

/-- `truncate_text`: cap at 2000 characters, replacing the tail with "...". -/
def truncateText (l : List Char) : List Char :=
  if l.length > 2000 then l.take 1997 ++ "...".data else l

/-- `description_content`: the tag-stripped, trimmed, truncated description. -/
def descriptionContent (a : NAssignment) : String :=
  ⟨truncateText (stripEnds (stripTags a.description.data))⟩

/-- One network call issued by the sync engine, as recorded in the call
trace.  `patchProps` carries whether a resolved date went into the payload. -/
inductive NOp where
  | patchProps (pageId : String) (hasDate : Bool)
  | getChildren (pageId : String)
  | deleteBlock (blockId : String)
  | appendChildren (pageId : String) (content : String)
  | createPage (name : String) (withChildren : Bool)
deriving Repr, DecidableEq

/-- Whether a call touches the page's child content blocks. -/
def isContentCall : NOp → Bool
  | .getChildren _ => true
  | .deleteBlock _ => true
  | .appendChildren _ _ => true
  | _ => false

/-- The calls `_update_page_content` issues: list the children, delete each
one, then append one paragraph when the new content is nonempty.  Responses
of the read and the deletes only feed logging. -/
def contentCalls (pageId : String) (content : String)
    (childrenOf : String → List String) : List NOp :=
  NOp.getChildren pageId :: (childrenOf pageId).map NOp.deleteBlock
    ++ (if content ≠ "" then [NOp.appendChildren pageId content] else [])

/-- The two-week staleness test: the assignment's effective date resolves
and lies strictly before `today - timedelta(weeks=2)`. -/
def staleCheck (today : Int) (a : NAssignment) : Bool :=
  match effDateIso a with
  | some d => decide (d < today - 14)
  | none => false

/-- The body of the per-assignment loop of `add_to_notion`, returning the
calls issued for this item.  `existing` is the pre-fetched title→page map,
`childrenOf` the children listing each page would return, `patchOk` whether
the properties PATCH response for a page is `ok` (its failure only skips the
content update and is logged). -/
def processItem (today : Int) (isFirstSync : Bool)
    (existing : String → Option String) (childrenOf : String → List String)
    (patchOk : String → Bool) (a : NAssignment) : List NOp :=
  match existing a.name with
  | some pageId =>
    if !isFirstSync && staleCheck today a then []
    else
      NOp.patchProps pageId (effDateIso a).isSome ::
        (if patchOk pageId && isFirstSync then
          contentCalls pageId (descriptionContent a) childrenOf
        else [])
  | none => [NOp.createPage a.name (descriptionContent a ≠ "")]

/-- Model of `add_to_notion`.  `prefetch` is the paginated query of existing
pages (`none` for a failed query); on failure the function raises before any
write (second component `true` = exception propagated).  The pre-fetch read
itself is not recorded in the trace, which lists only per-item calls. -/
def addToNotion (today : Int) (isFirstSync : Bool)
    (prefetch : Option (String → Option String))
    (childrenOf : String → List String) (patchOk : String → Bool)
    (assignments : List NAssignment) : List NOp × Bool :=
  match prefetch with
  | none => ([], true)
  | some existing =>
    ((assignments.map (processItem today isFirstSync existing childrenOf patchOk)).flatten,
     false)

/-- A field type of the destination database schema. -/
inductive FieldType where
  | title
  | date
  | richText
  | url
  | other
deriving Repr, DecidableEq

/-- One schema field: name and type. -/
structure NField where
  name : String
  ftype : FieldType
deriving Repr, DecidableEq

/-- One entry of the queued `properties_to_update` payload. -/
inductive PatchEntry where
  | rename (oldName newName : String)
  | addField (name : String) (ftype : FieldType)
deriving Repr, DecidableEq

/-- Name of the first date-typed field, scanning in schema order. -/
def firstDateName (props : List NField) : Option String :=
  (props.find? (fun f => f.ftype == FieldType.date)).map (fun f => f.name)

/-- Name of the title-typed field (the first one found). -/
def titleFieldName (props : List NField) : Option String :=
  (props.find? (fun f => f.ftype == FieldType.title)).map (fun f => f.name)

/-- The queued title rename: the title-typed field is renamed to "Name"
when it exists under another name. -/
def renameEntries (props : List NField) : List PatchEntry :=
  match titleFieldName props with
  | some n => if n ≠ "Name" then [PatchEntry.rename n "Name"] else []
  | none => []

/-- The `existing_names` list after the in-memory rename bookkeeping
(`existing_names.remove(old); existing_names.append("Name")`). -/
def namesAfterRename (props : List NField) : List String :=
  match titleFieldName props with
  | some n =>
    if n ≠ "Name" then ((props.map (fun f => f.name)).erase n) ++ ["Name"]
    else props.map (fun f => f.name)
  | none => props.map (fun f => f.name)

/-- The queued creations of the required `Course` and `URL` fields. -/
def addEntries (props : List NField) : List PatchEntry :=
  (if (namesAfterRename props).contains "Course" then []
   else [PatchEntry.addField "Course" FieldType.richText])
  ++ (if (namesAfterRename props).contains "URL" then []
      else [PatchEntry.addField "URL" FieldType.url])

/-- Model of `ensure_database_properties` after a successful schema read:
returns the discovered/created `date_property_name` and the queued change
set (empty = zero schema writes; the PATCH is issued only when nonempty). -/
def ensureDatabaseProperties (props : List NField) : String × List PatchEntry :=
  match firstDateName props with
  | some d => (d, renameEntries props ++ addEntries props)
  | none =>
    ("Due Date",
     renameEntries props ++ addEntries props ++ [PatchEntry.addField "Due Date" FieldType.date])

/-- Effect of the batched schema PATCH on the schema: a rename keeps the
field in place; added fields are appended in payload order. -/
def applyPatch (props : List NField) : List PatchEntry → List NField
  | [] => props
  | .rename o n :: rest =>
    applyPatch (props.map (fun f => if f.name == o then ⟨n, f.ftype⟩ else f)) rest
  | .addField n t :: rest => applyPatch (props ++ [⟨n, t⟩]) rest

/-- The rename-to-"Name" map the schema PATCH applies to each field. -/
def renameTo (t : String) (f : NField) : NField :=
  if f.name == t then ⟨"Name", f.ftype⟩ else f

/-! ## Claim theorems for the sync engine (`add_to_notion`) -/

/-- C2.  Staleness skip: an assignment whose effective date resolves to a day
more than two weeks in the past, matched by title to an existing page, is
skipped entirely on a non-first sync — the per-item loop body issues zero
calls for it. -/
theorem staleness_skip_zero_writes (today : Int)
    (existing : String → Option String) (childrenOf : String → List String)
    (patchOk : String → Bool) (a : NAssignment) (pid : String) (d : Int)
    (hm : existing a.name = some pid) (hd : effDateIso a = some d)
    (hst : d < today - 14) :
    processItem today false existing childrenOf patchOk a = [] := by
  simp [processItem, hm, staleCheck, hd, hst]

/-- Witness for C2: a concrete matched assignment dated 20 days before today
produces an empty call list on a non-first sync. -/
theorem staleness_skip_zero_writes_witness :
    (fun n => if n = "HW 1" then some "p1" else none) (NAssignment.name
      ⟨"HW 1", some (.good (-20 * 86400)), none, none, "", "", ""⟩) = some "p1" ∧
    effDateIso ⟨"HW 1", some (.good (-20 * 86400)), none, none, "", "", ""⟩ = some (-20) ∧
    (-20 : Int) < 0 - 14 ∧
    processItem 0 false (fun n => if n = "HW 1" then some "p1" else none)
      (fun _ => []) (fun _ => true)
      ⟨"HW 1", some (.good (-20 * 86400)), none, none, "", "", ""⟩ = [] :=
  ⟨by decide, by decide, by decide,
   staleness_skip_zero_writes 0 _ _ _ _ "p1" (-20) (by decide) (by decide) (by decide)⟩

/-- C10.  A matched assignment with no resolvable effective date is exempt
from the staleness gate: even on a non-first sync its page properties are
patched (and nothing else is done to the page). -/
theorem undated_matched_always_patched (today : Int)
    (existing : String → Option String) (childrenOf : String → List String)
    (patchOk : String → Bool) (a : NAssignment) (pid : String)
    (hm : existing a.name = some pid) (hd : effDateIso a = none) :
    processItem today false existing childrenOf patchOk a =
      [NOp.patchProps pid false] := by
  simp [processItem, hm, staleCheck, hd]

/-- Witness for C10: a concrete matched assignment whose only date string is
unparseable is patched on a non-first sync. -/
theorem undated_matched_always_patched_witness :
    (fun n => if n = "HW 2" then some "p2" else none) (NAssignment.name
      ⟨"HW 2", some .bad, none, none, "", "", ""⟩) = some "p2" ∧
    effDateIso ⟨"HW 2", some .bad, none, none, "", "", ""⟩ = none ∧
    processItem 0 false (fun n => if n = "HW 2" then some "p2" else none)
      (fun _ => []) (fun _ => true) ⟨"HW 2", some .bad, none, none, "", "", ""⟩ =
      [NOp.patchProps "p2" false] :=
  ⟨by decide, by decide,
   undated_matched_always_patched 0 _ _ _ _ "p2" (by decide) (by decide)⟩

/-- C6.  A failed pre-fetch of the existing pages aborts `add_to_notion`
before any write: the exception propagates (second component `true`) and the
call trace is empty. -/
theorem prefetch_failure_aborts (today : Int) (isFirstSync : Bool)
    (childrenOf : String → List String) (patchOk : String → Bool)
    (assignments : List NAssignment) :
    addToNotion today isFirstSync none childrenOf patchOk assignments = ([], true) :=
  rfl

/-- C5.  Content-replacement gate for a matched assignment that is not
staleness-skipped and whose properties PATCH succeeds: content-block calls
occur if and only if this is the first sync; on the first sync the engine
lists the children, deletes each of them and appends one paragraph when the
description is nonempty; on later syncs exactly the properties patch is
issued and the children are untouched. -/
theorem content_replacement_gate (today : Int) (isFirstSync : Bool)
    (existing : String → Option String) (childrenOf : String → List String)
    (patchOk : String → Bool) (a : NAssignment) (pid : String)
    (hm : existing a.name = some pid) (hok : patchOk pid = true)
    (hns : isFirstSync = false → staleCheck today a = false) :
    ((processItem today isFirstSync existing childrenOf patchOk a).any isContentCall = true
      ↔ isFirstSync = true)
    ∧ (isFirstSync = true →
        processItem today isFirstSync existing childrenOf patchOk a =
          NOp.patchProps pid (effDateIso a).isSome ::
            contentCalls pid (descriptionContent a) childrenOf)
    ∧ (isFirstSync = false →
        processItem today isFirstSync existing childrenOf patchOk a =
          [NOp.patchProps pid (effDateIso a).isSome]) := by
  cases isFirstSync with
  | false =>
    have hsc := hns rfl
    simp [processItem, hm, hsc, isContentCall]
  | true =>
    simp [processItem, hm, hok, contentCalls, isContentCall]

/-- Witness for C5: on a concrete first sync the matched page's two children
are deleted and the description is rewritten; the gate biconditional holds. -/
theorem content_replacement_gate_witness :
    (fun n => if n = "HW 3" then some "p3" else none) (NAssignment.name
      ⟨"HW 3", some (.good 86400), none, none, "<p>d</p>", "", ""⟩) = some "p3" ∧
    ((processItem 0 true (fun n => if n = "HW 3" then some "p3" else none)
        (fun _ => ["b1", "b2"]) (fun _ => true)
        ⟨"HW 3", some (.good 86400), none, none, "<p>d</p>", "", ""⟩).any isContentCall = true
      ↔ true = true) :=
  ⟨by decide,
   (content_replacement_gate 0 true _ _ _ _ "p3" (by decide) (by decide)
     (by simp)).1⟩

/-! ## Claim theorems for the source fetcher (`get_canvas_assignments`) -/

/-- Helper: ids already seen never reappear in the de-duplicated output. -/
theorem dedupRaw_count_seen (raws : List RawAssignment) :
    ∀ seen i, i ∈ seen → ((dedupRaw seen raws).map (fun r => r.rid)).count i = 0 := by
  induction raws with
  | nil => intro seen i _; rfl
  | cons r rest ih =>
    intro seen i hi
    by_cases hr : r.rid ∈ seen
    · simpa [dedupRaw, hr] using ih seen i hi
    · have hne : r.rid ≠ i := fun h => hr (h ▸ hi)
      have := ih (r.rid :: seen) i (List.mem_cons_of_mem _ hi)
      simpa [dedupRaw, hr, List.count_cons, hne] using this

/-- Helper: an unseen id occurring in the input occurs exactly once in the
de-duplicated output. -/
theorem dedupRaw_count_new (raws : List RawAssignment) :
    ∀ seen i, i ∉ seen → i ∈ raws.map (fun r => r.rid) →
      ((dedupRaw seen raws).map (fun r => r.rid)).count i = 1 := by
  induction raws with
  | nil => intro seen i _ hmem; simp at hmem
  | cons r rest ih =>
    intro seen i hni hmem
    have hmem2 : i = r.rid ∨ i ∈ rest.map (fun r => r.rid) := by
      rcases List.mem_map.mp hmem with ⟨a, ha, hai⟩
      rcases List.mem_cons.mp ha with h | h
      · exact Or.inl (hai ▸ h ▸ rfl)
      · exact Or.inr (List.mem_map.mpr ⟨a, h, hai⟩)
    by_cases hr : r.rid ∈ seen
    · have hir : i ≠ r.rid := fun h => hni (h ▸ hr)
      have hmem' : i ∈ rest.map (fun r => r.rid) := hmem2.resolve_left hir
      simpa [dedupRaw, hr] using ih seen i hni hmem'
    · by_cases hir : i = r.rid
      · have h0 := dedupRaw_count_seen rest (r.rid :: seen) r.rid
          (List.mem_cons_self r.rid seen)
        subst hir
        simp [dedupRaw, hr, List.count_cons, h0]
      · have hmem' : i ∈ rest.map (fun r => r.rid) := hmem2.resolve_left hir
        have hni' : i ∉ r.rid :: seen := by
          intro h
          rcases List.mem_cons.mp h with h | h
          · exact hir h
          · exact hni h
        have := ih (r.rid :: seen) i hni' hmem'
        have hne : r.rid ≠ i := fun h => hir h.symm
        simpa [dedupRaw, hr, List.count_cons, hne] using this

/-- Helper: every kept record is unseen and is the first input record
carrying its id. -/
theorem dedupRaw_first_seen (raws : List RawAssignment) :
    ∀ seen, ∀ r ∈ dedupRaw seen raws,
      r.rid ∉ seen ∧ raws.find? (fun x => x.rid == r.rid) = some r := by
  induction raws with
  | nil => intro seen r hr; simp [dedupRaw] at hr
  | cons q rest ih =>
    intro seen r hr
    by_cases hq : q.rid ∈ seen
    · have hr' : r ∈ dedupRaw seen rest := by simpa [dedupRaw, hq] using hr
      obtain ⟨hnotseen, hfind⟩ := ih seen r hr'
      have hne : q.rid ≠ r.rid := fun h => hnotseen (h ▸ hq)
      have hne' : (q.rid == r.rid) = false := beq_eq_false_iff_ne.mpr hne
      refine ⟨hnotseen, ?_⟩
      simp [List.find?, hne', hfind]
    · have hr' : r = q ∨ r ∈ dedupRaw (q.rid :: seen) rest := by
        simpa [dedupRaw, hq] using hr
      rcases hr' with rfl | hr'
      · exact ⟨hq, by simp [List.find?]⟩
      · obtain ⟨hnotseen, hfind⟩ := ih (q.rid :: seen) r hr'
        have hne : q.rid ≠ r.rid := fun h => hnotseen (by simp [h])
        have hne' : (q.rid == r.rid) = false := beq_eq_false_iff_ne.mpr hne
        refine ⟨fun h => hnotseen (List.mem_cons_of_mem _ h), ?_⟩
        simp [List.find?, hne', hfind]

/-- C4.  De-duplication of the fetched raw list: every id occurring in the
merged input yields exactly one kept record, and each kept record is the
first record in merge order carrying its id (output entries are then built
from kept records by `mkFinalEntry`). -/
theorem fetch_dedup_first_seen (raws : List RawAssignment) :
    (∀ i ∈ raws.map (fun r => r.rid),
      ((dedupRaw [] raws).map (fun r => r.rid)).count i = 1)
    ∧ (∀ r ∈ dedupRaw [] raws, raws.find? (fun x => x.rid == r.rid) = some r)
    ∧ canvasFinalList raws = (dedupRaw [] raws).map mkFinalEntry :=
  ⟨fun i hi => dedupRaw_count_new raws [] i (by simp) hi,
   fun r hr => (dedupRaw_first_seen raws [] r hr).2,
   rfl⟩

/-- Witness for C4 on a list with a duplicated id: the duplicate id 1 is kept
once and its kept record is the first-seen one. -/
theorem fetch_dedup_first_seen_witness :
    ((dedupRaw [] [⟨1, some "A", none, none, none, none, none, none⟩,
        ⟨2, some "B", none, none, none, none, none, none⟩,
        ⟨1, some "A2", none, none, none, none, none, none⟩]).map
          (fun r => r.rid)).count 1 = 1 :=
  (fetch_dedup_first_seen _).1 1 (by decide)

/-- C9 counterexample: the records `get_canvas_assignments` returns do not
carry an `id` key — the dict literal omits it — so the claim that every
returned record carries the source id is false on this one-record input. -/
theorem fetch_record_lacks_id_counterexample :
    ¬ (∀ rec ∈ canvasFinalList [⟨1, some "A", none, none, none, none, none, none⟩],
        "id" ∈ rec.map Prod.fst) := by
  decide

/-- C9 amended.  Every returned record carries exactly the keys
name, due_at, lock_at, created_at, description, html_url and course_name —
the source id is used only as the de-duplication key and is not a field of
the record. -/
theorem fetch_record_fields (raws : List RawAssignment) :
    ∀ rec ∈ canvasFinalList raws,
      rec.map Prod.fst =
        ["name", "due_at", "lock_at", "created_at", "description",
         "html_url", "course_name"] := by
  intro rec hrec
  simp only [canvasFinalList, List.mem_map] at hrec
  obtain ⟨r, _, rfl⟩ := hrec
  rfl

/-- Witness for the amended C9 at a concrete record. -/
theorem fetch_record_fields_witness :
    (mkFinalEntry ⟨1, some "A", none, none, none, none, none, none⟩).map Prod.fst =
      ["name", "due_at", "lock_at", "created_at", "description",
       "html_url", "course_name"] :=
  fetch_record_fields [⟨1, some "A", none, none, none, none, none, none⟩] _ (by decide)

/-- C7 counterexample: with a status callback supplied (as every caller in
the repository does), a failed top-level course-list request does not raise —
the function logs and returns an empty list. -/
theorem fetch_toplevel_failure_no_raise_counterexample :
    getCanvasAssignments true none = Except.ok [] ∧
    (Except.ok ([] : List (List (String × Option String))) :
      Except Unit (List (List (String × Option String)))) ≠ Except.error () :=
  ⟨rfl, fun h => Except.noConfusion h⟩

/-- Helper: a course all of whose bucket requests failed contributes no raw
assignments. -/
theorem fetchCourse_all_failed (c : List (Option (List RawAssignment)))
    (h : ∀ b ∈ c, b = none) : fetchCourse c = [] := by
  induction c with
  | nil => rfl
  | cons b rest ih =>
    have hb := h b (by simp)
    subst hb
    simpa [fetchCourse] using ih (fun x hx => h x (by simp [hx]))

/-- C7 amended.  `get_canvas_assignments` returns an empty list (not an
error) for an empty course list or when every per-course fetch fails; a
failed top-level course-list request raises only when the caller supplied no
status callback — with one it logs and returns an empty list. -/
theorem fetch_error_handling (hasCallback : Bool) :
    getCanvasAssignments hasCallback (some []) = .ok []
    ∧ (∀ courses : List (List (Option (List RawAssignment))),
        (∀ c ∈ courses, ∀ b ∈ c, b = none) →
        getCanvasAssignments hasCallback (some courses) = .ok [])
    ∧ getCanvasAssignments false none = .error ()
    ∧ getCanvasAssignments true none = .ok [] := by
  refine ⟨rfl, ?_, rfl, rfl⟩
  intro courses h
  have : (courses.map fetchCourse).flatten = [] := by
    induction courses with
    | nil => rfl
    | cons c rest ih =>
      have hc := fetchCourse_all_failed c (h c (by simp))
      simpa [hc] using ih (fun x hx b hb => h x (by simp [hx]) b hb)
  simp [getCanvasAssignments, this, canvasFinalList, dedupRaw]

/-- Witness for the amended C7: two courses whose bucket fetches all failed
yield an empty result, and without a callback a top-level failure raises. -/
theorem fetch_error_handling_witness :
    getCanvasAssignments true (some [[none, none], [none]]) = .ok [] ∧
    getCanvasAssignments false none = .error () :=
  ⟨(fetch_error_handling true).2.1 [[none, none], [none]] (by decide),
   (fetch_error_handling true).2.2.1⟩

/-! ## Claim theorems for the schema provisioner (`ensure_database_properties`) -/

/-- Helper: on a schema whose title field (if any) is already named "Name",
whose Course and URL fields exist and which has a date field, the provisioner
queues no writes and reports the first date field. -/
theorem ensure_of_correct (ps : List NField) (d : String)
    (ht : titleFieldName ps = none ∨ titleFieldName ps = some "Name")
    (hc : "Course" ∈ ps.map (fun f => f.name))
    (hu : "URL" ∈ ps.map (fun f => f.name))
    (hd : firstDateName ps = some d) :
    ensureDatabaseProperties ps = (d, []) := by
  have hc2 : ∃ x ∈ ps, x.name = "Course" := by
    simpa [List.mem_map] using hc
  have hu2 : ∃ x ∈ ps, x.name = "URL" := by
    simpa [List.mem_map] using hu
  rcases ht with ht | ht <;>
    simp [ensureDatabaseProperties, renameEntries, addEntries, namesAfterRename, ht, hd, hc2, hu2]

theorem applyPatch_append (es1 es2 : List PatchEntry) :
    ∀ l, applyPatch l (es1 ++ es2) = applyPatch (applyPatch l es1) es2 := by
  induction es1 with
  | nil => intro l; rfl
  | cons e rest ih =>
    intro l
    cases e with
    | rename o n => simp [applyPatch, ih]
    | addField n t => simp [applyPatch, ih]

theorem titleFieldName_append_nontitle (l extra : List NField)
    (h : ∀ f ∈ extra, f.ftype ≠ FieldType.title) :
    titleFieldName (l ++ extra) = titleFieldName l := by
  unfold titleFieldName
  rw [List.find?_append]
  have hnone : extra.find? (fun f => f.ftype == FieldType.title) = none := by
    rw [List.find?_eq_none]
    intro x hx
    simpa using h x hx
  cases hfind : l.find? (fun f => f.ftype == FieldType.title) <;> simp [hnone, hfind]

theorem firstDateName_append_some (l extra : List NField) (d : String)
    (h : firstDateName l = some d) :
    firstDateName (l ++ extra) = some d := by
  unfold firstDateName at h ⊢
  rw [List.find?_append]
  cases hfind : l.find? (fun f => f.ftype == FieldType.date) with
  | none => simp [hfind] at h
  | some g => simp [hfind] at h ⊢; exact h

theorem firstDateName_append_none (l extra : List NField)
    (h : firstDateName l = none) :
    firstDateName (l ++ extra) = firstDateName extra := by
  unfold firstDateName at h ⊢
  rw [List.find?_append]
  cases hfind : l.find? (fun f => f.ftype == FieldType.date) with
  | none => simp [hfind]
  | some g => simp [hfind] at h



theorem ftype_renameTo (t : String) (f : NField) : (renameTo t f).ftype = f.ftype := by
  unfold renameTo
  split <;> rfl

theorem applyPatch_rename_singleton (l : List NField) (t : String) :
    applyPatch l [PatchEntry.rename t "Name"] = l.map (renameTo t) := rfl

theorem find?_type_map_renameTo (l : List NField) (t : String) (ty : FieldType) :
    (l.map (renameTo t)).find? (fun f => f.ftype == ty) =
      (l.find? (fun f => f.ftype == ty)).map (renameTo t) := by
  rw [List.find?_map]
  have hfun : ((fun f : NField => f.ftype == ty) ∘ renameTo t) =
      (fun f : NField => f.ftype == ty) :=
    funext fun f => by simp [Function.comp, ftype_renameTo]
  rw [hfun]

theorem titleFieldName_base (props : List NField) :
    titleFieldName (applyPatch props (renameEntries props)) =
      (titleFieldName props).map (fun _ => "Name") := by
  cases h : titleFieldName props with
  | none => simp [renameEntries, h, applyPatch]
  | some n =>
    by_cases hn : n = "Name"
    · subst hn
      simp [renameEntries, h, applyPatch]
    · have hfind : ∃ f₀, props.find? (fun f => f.ftype == FieldType.title) = some f₀ ∧
          f₀.name = n := by
        unfold titleFieldName at h
        cases hf : props.find? (fun f => f.ftype == FieldType.title) with
        | none => simp [hf] at h
        | some g => exact ⟨g, rfl, by simpa [hf] using h⟩
      obtain ⟨f₀, hf₀, hname⟩ := hfind
      simp only [renameEntries, h, if_pos hn, applyPatch_rename_singleton]
      unfold titleFieldName
      rw [find?_type_map_renameTo, hf₀]
      simp [renameTo, hname]

theorem firstDateName_base (props : List NField)
    (hnd : (props.map (fun f => f.name)).Nodup) :
    firstDateName (applyPatch props (renameEntries props)) = firstDateName props := by
  cases h : titleFieldName props with
  | none => simp [renameEntries, h, applyPatch]
  | some n =>
    by_cases hn : n = "Name"
    · subst hn
      simp [renameEntries, h, applyPatch]
    · have hfind : ∃ f₀, props.find? (fun f => f.ftype == FieldType.title) = some f₀ ∧
          f₀.name = n := by
        unfold titleFieldName at h
        cases hf : props.find? (fun f => f.ftype == FieldType.title) with
        | none => simp [hf] at h
        | some g => exact ⟨g, rfl, by simpa [hf] using h⟩
      obtain ⟨f₀, hf₀, hname⟩ := hfind
      have hf₀ty : f₀.ftype = FieldType.title := by
        have := List.find?_some hf₀
        simpa using this
      have hf₀mem : f₀ ∈ props := List.mem_of_find?_eq_some hf₀
      simp only [renameEntries, h, if_pos hn, applyPatch_rename_singleton]
      unfold firstDateName
      rw [find?_type_map_renameTo]
      cases hg : props.find? (fun f => f.ftype == FieldType.date) with
      | none => simp
      | some g =>
        have hgty : g.ftype = FieldType.date := by
          have := List.find?_some hg
          simpa using this
        have hgmem : g ∈ props := List.mem_of_find?_eq_some hg
        have hgname : g.name ≠ n := by
          intro heq
          have : g = f₀ := List.inj_on_of_nodup_map hnd hgmem hf₀mem
            (by rw [heq, hname])
          rw [this, hf₀ty] at hgty
          exact FieldType.noConfusion hgty
        simp [renameTo, hgname]

theorem names_base_subset (props : List NField)
    (hnd : (props.map (fun f => f.name)).Nodup) :
    ∀ m ∈ namesAfterRename props,
      m ∈ (applyPatch props (renameEntries props)).map (fun f => f.name) := by
  cases h : titleFieldName props with
  | none =>
    intro m hm
    simpa [renameEntries, h, applyPatch] using (by simpa [namesAfterRename, h] using hm)
  | some n =>
    by_cases hn : n = "Name"
    · subst hn
      intro m hm
      simpa [renameEntries, h, applyPatch] using (by simpa [namesAfterRename, h] using hm)
    · intro m hm
      have hm' : m ∈ ((props.map (fun f => f.name)).erase n) ++ ["Name"] := by
        simpa [namesAfterRename, h, if_pos hn] using hm
      have hfind : ∃ f₀, props.find? (fun f => f.ftype == FieldType.title) = some f₀ ∧
          f₀.name = n := by
        unfold titleFieldName at h
        cases hf : props.find? (fun f => f.ftype == FieldType.title) with
        | none => simp [hf] at h
        | some g => exact ⟨g, rfl, by simpa [hf] using h⟩
      obtain ⟨f₀, hf₀, hname⟩ := hfind
      have hf₀mem : f₀ ∈ props := List.mem_of_find?_eq_some hf₀
      simp only [renameEntries, h, if_pos hn, applyPatch_rename_singleton]
      rcases List.mem_append.mp hm' with hm2 | hm2
      · have hm3 : m ≠ n ∧ m ∈ props.map (fun f => f.name) :=
          (List.Nodup.mem_erase_iff hnd).mp hm2
        obtain ⟨g, hgmem, hgname⟩ := List.mem_map.mp hm3.2
        refine List.mem_map.mpr ⟨renameTo n g, List.mem_map_of_mem _ hgmem, ?_⟩
        have hgn : (g.name == n) = false := by
          rw [beq_eq_false_iff_ne, hgname]
          exact hm3.1
        have : renameTo n g = g := by simp [renameTo, hgn]
        rw [this]
        exact hgname
      · have hm3 : m = "Name" := by simpa using hm2
        subst hm3
        refine List.mem_map.mpr ⟨renameTo n f₀, List.mem_map_of_mem _ hf₀mem, ?_⟩
        simp [renameTo, hname]



theorem mem_name_append_left (l extra : List NField) (m : String)
    (h : m ∈ l.map (fun f => f.name)) :
    m ∈ (l ++ extra).map (fun f => f.name) := by
  rw [List.map_append]
  exact List.mem_append.mpr (Or.inl h)

theorem ensure_after (base extras : List NField) (d : String)
    (htb : titleFieldName base = none ∨ titleFieldName base = some "Name")
    (hext : ∀ f ∈ extras, f.ftype ≠ FieldType.title)
    (hdd : firstDateName (base ++ extras) = some d)
    (hc : "Course" ∈ (base ++ extras).map (fun f => f.name))
    (hu : "URL" ∈ (base ++ extras).map (fun f => f.name)) :
    ensureDatabaseProperties (base ++ extras) = (d, []) :=
  ensure_of_correct _ d
    (by rw [titleFieldName_append_nontitle _ _ hext]; exact htb) hc hu hdd

/-- C3.  Schema idempotence: applying the first call's queued change set to
any schema (with the duplicate-free field names a JSON object guarantees) and
calling `ensure_database_properties` again queues zero schema writes and
returns the same `date_property_name` as the first call. -/
theorem ensure_schema_idempotent (props : List NField)
    (hnd : (props.map (fun f => f.name)).Nodup) :
    ensureDatabaseProperties (applyPatch props (ensureDatabaseProperties props).2) =
      ((ensureDatabaseProperties props).1, []) := by
  have htb := titleFieldName_base props
  have hdb := firstDateName_base props hnd
  have hsub := names_base_subset props hnd
  have htb2 : titleFieldName (applyPatch props (renameEntries props)) = none ∨
      titleFieldName (applyPatch props (renameEntries props)) = some "Name" := by
    rw [htb]
    cases titleFieldName props <;> simp
  cases hD : firstDateName props with
  | some d =>
    have hres : ensureDatabaseProperties props =
        (d, renameEntries props ++ addEntries props) := by
      simp [ensureDatabaseProperties, hD]
    rw [hres]
    show ensureDatabaseProperties
      (applyPatch props (renameEntries props ++ addEntries props)) = (d, [])
    rw [applyPatch_append]
    have hdbase : firstDateName (applyPatch props (renameEntries props)) = some d := by
      rw [hdb, hD]
    by_cases hCm : "Course" ∈ namesAfterRename props <;>
      by_cases hUm : "URL" ∈ namesAfterRename props
    · have hadds : addEntries props = [] := by simp [addEntries, hCm, hUm]
      rw [hadds]
      show ensureDatabaseProperties (applyPatch props (renameEntries props)) = (d, [])
      exact ensure_of_correct _ d htb2 (hsub "Course" hCm) (hsub "URL" hUm) hdbase
    · have hadds : addEntries props = [PatchEntry.addField "URL" FieldType.url] := by
        simp [addEntries, hCm, hUm]
      rw [hadds]
      have happ : applyPatch (applyPatch props (renameEntries props))
          [PatchEntry.addField "URL" FieldType.url] =
          applyPatch props (renameEntries props) ++ [⟨"URL", FieldType.url⟩] := rfl
      rw [happ]
      exact ensure_after _ _ d htb2 (by simp)
        (firstDateName_append_some _ _ d hdbase)
        (mem_name_append_left _ _ _ (hsub "Course" hCm))
        (by simp)
    · have hadds : addEntries props = [PatchEntry.addField "Course" FieldType.richText] := by
        simp [addEntries, hCm, hUm]
      rw [hadds]
      have happ : applyPatch (applyPatch props (renameEntries props))
          [PatchEntry.addField "Course" FieldType.richText] =
          applyPatch props (renameEntries props) ++ [⟨"Course", FieldType.richText⟩] := rfl
      rw [happ]
      exact ensure_after _ _ d htb2 (by simp)
        (firstDateName_append_some _ _ d hdbase)
        (by simp)
        (mem_name_append_left _ _ _ (hsub "URL" hUm))
    · have hadds : addEntries props =
          [PatchEntry.addField "Course" FieldType.richText,
           PatchEntry.addField "URL" FieldType.url] := by
        simp [addEntries, hCm, hUm]
      rw [hadds]
      have happ : applyPatch (applyPatch props (renameEntries props))
          [PatchEntry.addField "Course" FieldType.richText,
           PatchEntry.addField "URL" FieldType.url] =
          applyPatch props (renameEntries props) ++
            [⟨"Course", FieldType.richText⟩, ⟨"URL", FieldType.url⟩] := by
        show applyPatch props (renameEntries props) ++ [⟨"Course", FieldType.richText⟩]
            ++ [⟨"URL", FieldType.url⟩] = _
        rw [List.append_assoc]
        rfl
      rw [happ]
      exact ensure_after _ _ d htb2 (by simp)
        (firstDateName_append_some _ _ d hdbase)
        (by simp)
        (by simp)
  | none =>
    have hres : ensureDatabaseProperties props =
        ("Due Date", renameEntries props ++ addEntries props
          ++ [PatchEntry.addField "Due Date" FieldType.date]) := by
      simp [ensureDatabaseProperties, hD]
    rw [hres]
    show ensureDatabaseProperties
      (applyPatch props (renameEntries props ++ addEntries props
        ++ [PatchEntry.addField "Due Date" FieldType.date])) = ("Due Date", [])
    rw [applyPatch_append, applyPatch_append]
    have hdbase : firstDateName (applyPatch props (renameEntries props)) = none := by
      rw [hdb, hD]
    by_cases hCm : "Course" ∈ namesAfterRename props <;>
      by_cases hUm : "URL" ∈ namesAfterRename props
    · have hadds : addEntries props = [] := by simp [addEntries, hCm, hUm]
      rw [hadds]
      have happ : applyPatch (applyPatch (applyPatch props (renameEntries props)) [])
          [PatchEntry.addField "Due Date" FieldType.date] =
          applyPatch props (renameEntries props) ++ [⟨"Due Date", FieldType.date⟩] := rfl
      rw [happ]
      refine ensure_after _ _ "Due Date" htb2 (by simp) ?_ ?_ ?_
      · rw [firstDateName_append_none _ _ hdbase]
        rfl
      · exact mem_name_append_left _ _ _ (hsub "Course" hCm)
      · exact mem_name_append_left _ _ _ (hsub "URL" hUm)
    · have hadds : addEntries props = [PatchEntry.addField "URL" FieldType.url] := by
        simp [addEntries, hCm, hUm]
      rw [hadds]
      have happ : applyPatch (applyPatch (applyPatch props (renameEntries props))
          [PatchEntry.addField "URL" FieldType.url])
          [PatchEntry.addField "Due Date" FieldType.date] =
          applyPatch props (renameEntries props) ++
            [⟨"URL", FieldType.url⟩, ⟨"Due Date", FieldType.date⟩] := by
        show applyPatch props (renameEntries props) ++ [⟨"URL", FieldType.url⟩]
            ++ [⟨"Due Date", FieldType.date⟩] = _
        rw [List.append_assoc]
        rfl
      rw [happ]
      refine ensure_after _ _ "Due Date" htb2 (by simp) ?_ ?_ ?_
      · rw [firstDateName_append_none _ _ hdbase]
        rfl
      · exact mem_name_append_left _ _ _ (hsub "Course" hCm)
      · simp
    · have hadds : addEntries props = [PatchEntry.addField "Course" FieldType.richText] := by
        simp [addEntries, hCm, hUm]
      rw [hadds]
      have happ : applyPatch (applyPatch (applyPatch props (renameEntries props))
          [PatchEntry.addField "Course" FieldType.richText])
          [PatchEntry.addField "Due Date" FieldType.date] =
          applyPatch props (renameEntries props) ++
            [⟨"Course", FieldType.richText⟩, ⟨"Due Date", FieldType.date⟩] := by
        show applyPatch props (renameEntries props) ++ [⟨"Course", FieldType.richText⟩]
            ++ [⟨"Due Date", FieldType.date⟩] = _
        rw [List.append_assoc]
        rfl
      rw [happ]
      refine ensure_after _ _ "Due Date" htb2 (by simp) ?_ ?_ ?_
      · rw [firstDateName_append_none _ _ hdbase]
        rfl
      · simp
      · exact mem_name_append_left _ _ _ (hsub "URL" hUm)
    · have hadds : addEntries props =
          [PatchEntry.addField "Course" FieldType.richText,
           PatchEntry.addField "URL" FieldType.url] := by
        simp [addEntries, hCm, hUm]
      rw [hadds]
      have happ : applyPatch (applyPatch (applyPatch props (renameEntries props))
          [PatchEntry.addField "Course" FieldType.richText,
           PatchEntry.addField "URL" FieldType.url])
          [PatchEntry.addField "Due Date" FieldType.date] =
          applyPatch props (renameEntries props) ++
            [⟨"Course", FieldType.richText⟩, ⟨"URL", FieldType.url⟩,
             ⟨"Due Date", FieldType.date⟩] := by
        show applyPatch props (renameEntries props) ++ [⟨"Course", FieldType.richText⟩]
            ++ [⟨"URL", FieldType.url⟩] ++ [⟨"Due Date", FieldType.date⟩] = _
        rw [List.append_assoc, List.append_assoc]
        rfl
      rw [happ]
      refine ensure_after _ _ "Due Date" htb2 (by simp) ?_ ?_ ?_
      · rw [firstDateName_append_none _ _ hdbase]
        rfl
      · simp
      · simp

/-- Witness for C3 at the spec's concrete scenario (fields `Title` of title
type and `Created` of date type): the second call queues nothing and returns
"Created" again. -/
theorem ensure_schema_idempotent_witness :
    (([⟨"Title", FieldType.title⟩, ⟨"Created", FieldType.date⟩] : List NField).map
      (fun f => f.name)).Nodup ∧
    ensureDatabaseProperties
      (applyPatch [⟨"Title", FieldType.title⟩, ⟨"Created", FieldType.date⟩]
        (ensureDatabaseProperties
          [⟨"Title", FieldType.title⟩, ⟨"Created", FieldType.date⟩]).2) =
      ((ensureDatabaseProperties
        [⟨"Title", FieldType.title⟩, ⟨"Created", FieldType.date⟩]).1, []) :=
  ⟨by decide, ensure_schema_idempotent _ (by decide)⟩

/-! ## Claim theorems for the time-block planner: the short-quiz gate -/

/-- Helper: each placement appends exactly one block, and its duration is the
block length used for the attempt. -/
theorem placeOne_scheduled (wBy : Nat → List Window) (dailyMax : Option Int)
    (st : PlanState) (a : TAssignment) (due : Int) (nb i tbm : Nat) :
    ∃ b : SBlock, (placeOne wBy dailyMax st a due nb i tbm).scheduled =
      st.scheduled ++ [b] ∧ b.duration = tbm := by
  unfold placeOne
  cases findSlotForBlock wBy st.onDay due tbm dailyMax with
  | none => exact ⟨_, rfl, rfl⟩
  | some s =>
    cases s with
    | mk s e => exact ⟨_, rfl, rfl⟩

/-- Helper: the placement loop appends exactly `k` blocks, all of the chosen
duration (the fallback guarantees a slot on every iteration). -/
theorem placeLoop_scheduled (wBy : Nat → List Window) (dailyMax : Option Int)
    (a : TAssignment) (due : Int) (nb tbm : Nat) :
    ∀ k st, ∃ bs, (placeLoop wBy dailyMax a due nb tbm k st).scheduled =
      st.scheduled ++ bs ∧ bs.length = k ∧ ∀ b ∈ bs, b.duration = tbm := by
  intro k
  induction k with
  | zero => intro st; exact ⟨[], by simp [placeLoop], rfl, by simp⟩
  | succ n ih =>
    intro st
    obtain ⟨b, hb, hbd⟩ := placeOne_scheduled wBy dailyMax st a due nb (nb - (n + 1)) tbm
    obtain ⟨bs, hbs, hlen, hdur⟩ := ih (placeOne wBy dailyMax st a due nb (nb - (n + 1)) tbm)
    refine ⟨b :: bs, ?_, by simp [hlen], ?_⟩
    · rw [placeLoop, hbs, hb]
      simp
    · intro x hx
      rcases List.mem_cons.mp hx with rfl | hx
      · exact hbd
      · exact hdur x hx

/-- Helper: the date filter on a one-assignment list either drops it or keeps
it with its effective due day inside the two-week window. -/
theorem filterAssignments_singleton (a : TAssignment) (today : Int) :
    filterAssignments [a] today = [] ∨
      ∃ d, effDueDay a = some d ∧ today ≤ d ∧ d ≤ today + 14 ∧
        filterAssignments [a] today = [(d, a)] := by
  unfold filterAssignments
  cases hd : effDueDay a with
  | none => exact Or.inl (by simp [List.filterMap, hd])
  | some d =>
    by_cases hin : today ≤ d ∧ d ≤ today + 14
    · exact Or.inr ⟨d, rfl, hin.1, hin.2, by simp [List.filterMap, hd, hin]⟩
    · exact Or.inl (by simp [List.filterMap, hd, hin])

/-- C8 counterexample: the claim promises exactly one short block when short
quizzes are included, but a 5-point quiz due in two days collects the
urgency bonus (score 1.0 + 1.0 rounds to 2) and is scheduled as two short
blocks. -/
theorem short_quiz_two_blocks_counterexample :
    (scheduleBlocks
      [⟨"Quiz 2", "", "", none, some (2 * 86400 + 3600), none, none, true, [], some 5,
        none, "C1", "u"⟩]
      (fun wd => if wd = 2 then [⟨64800, 75600⟩] else []) 0 90 none true 10 15 4).length = 2
    ∧ ¬ ((scheduleBlocks
      [⟨"Quiz 2", "", "", none, some (2 * 86400 + 3600), none, none, true, [], some 5,
        none, "C1", "u"⟩]
      (fun wd => if wd = 2 then [⟨64800, 75600⟩] else []) 0 90 none true 10 15 4).length = 1) := by
  decide

/-- C8 amended.  A quiz-type assignment at or below the low-points threshold
is skipped entirely when short quizzes are excluded; when they are included,
every block scheduled for it has the short duration, and their number is the
one the normal priority scoring assigns (not necessarily one). -/
theorem short_quiz_gate (a : TAssignment) (wBy : Nat → List Window) (today : Int)
    (blockMinutes : Nat) (dailyMax : Option Int) (lowTh : Int) (shortMin maxB : Nat)
    (hq : isQuizA a = true) (hp : pointsLE a lowTh = true) :
    scheduleBlocks [a] wBy today blockMinutes dailyMax false lowTh shortMin maxB = []
    ∧ (∀ b ∈ scheduleBlocks [a] wBy today blockMinutes dailyMax true lowTh shortMin maxB,
        b.duration = shortMin)
    ∧ (∀ d, effDueDay a = some d → today ≤ d → d ≤ today + 14 →
        (scheduleBlocks [a] wBy today blockMinutes dailyMax true lowTh shortMin maxB).length
          = nBlocksFor a d today blockMinutes maxB) := by
  rcases filterAssignments_singleton a today with hfa | ⟨d, hd, hd1, hd2, hfa⟩
  · refine ⟨?_, ?_, ?_⟩
    · simp [scheduleBlocks, hfa, sortByDue]
    · intro b hb
      simp [scheduleBlocks, hfa, sortByDue] at hb
    · intro d hdd h1 h2
      exfalso
      unfold filterAssignments at hfa
      simp [List.filterMap, hdd, h1, h2] at hfa
  · have hsort : sortByDue (filterAssignments [a] today) = [(d, a)] := by
      rw [hfa]; rfl
    have hskip : scheduleBlocks [a] wBy today blockMinutes dailyMax false lowTh shortMin maxB
        = [] := by
      unfold scheduleBlocks
      rw [hsort]
      simp [List.foldl, processAssignment, hq, hp]
    have hrun : scheduleBlocks [a] wBy today blockMinutes dailyMax true lowTh shortMin maxB
        = (placeLoop wBy dailyMax a d (nBlocksFor a d today blockMinutes maxB) shortMin
            (nBlocksFor a d today blockMinutes maxB) ⟨[], fun _ => []⟩).scheduled := by
      unfold scheduleBlocks
      rw [hsort]
      simp [List.foldl, processAssignment, hq, hp]
    obtain ⟨bs, hbs, hlen, hdur⟩ := placeLoop_scheduled wBy dailyMax a d
      (nBlocksFor a d today blockMinutes maxB) shortMin
      (nBlocksFor a d today blockMinutes maxB) ⟨[], fun _ => []⟩
    refine ⟨hskip, ?_, ?_⟩
    · intro b hb
      rw [hrun, hbs] at hb
      exact hdur b (by simpa using hb)
    · intro d' hdd h1 h2
      have : d' = d := by rw [hd] at hdd; exact (Option.some.inj hdd).symm
      subst this
      rw [hrun, hbs]
      simp [hlen]

/-- Witness for the amended C8 at the concrete quiz of the counterexample:
excluded it yields no blocks; included, the block count equals the scoring
outcome. -/
theorem short_quiz_gate_witness :
    isQuizA ⟨"Quiz 2", "", "", none, some (2 * 86400 + 3600), none, none, true, [], some 5,
      none, "C1", "u"⟩ = true ∧
    scheduleBlocks
      [⟨"Quiz 2", "", "", none, some (2 * 86400 + 3600), none, none, true, [], some 5,
        none, "C1", "u"⟩]
      (fun wd => if wd = 2 then [⟨64800, 75600⟩] else []) 0 90 none false 10 15 4 = [] ∧
    (scheduleBlocks
      [⟨"Quiz 2", "", "", none, some (2 * 86400 + 3600), none, none, true, [], some 5,
        none, "C1", "u"⟩]
      (fun wd => if wd = 2 then [⟨64800, 75600⟩] else []) 0 90 none true 10 15 4).length =
      nBlocksFor
        ⟨"Quiz 2", "", "", none, some (2 * 86400 + 3600), none, none, true, [], some 5,
          none, "C1", "u"⟩ 2 0 90 4 :=
  ⟨by decide,
   (short_quiz_gate _ _ 0 90 none 10 15 4 (by decide) (by decide)).1,
   (short_quiz_gate _ _ 0 90 none 10 15 4 (by decide) (by decide)).2.2 2
     (by decide) (by decide) (by decide)⟩


/-! ## Claim theorems for the time-block planner: the no-overlap invariant -/

/-- Helper: a slot returned by the sliding loop has the requested length,
starts inside the window, ends no later than the first candidate, avoids all
scheduled intervals of the day, and implies the daily cap was not hit. -/
theorem tryFit_spec (wS bS : Int) (sched : DaySched) (dm : Bool) (hbs : 0 ≤ bS) :
    ∀ fuel candEnd s e, tryFit wS bS sched dm fuel candEnd = some (s, e) →
      e = s + bS ∧ wS ≤ s ∧ e ≤ candEnd ∧ anyOverlapB s e sched = false ∧ dm = false := by
  intro fuel
  induction fuel with
  | zero => intro candEnd s e h; simp [tryFit] at h
  | succ n ih =>
    intro candEnd s e h
    simp only [tryFit] at h
    by_cases hge : candEnd - bS ≥ wS
    · rw [if_pos hge] at h
      by_cases hov : (anyOverlapB (candEnd - bS) candEnd sched || dm) = true
      · rw [if_pos hov] at h
        obtain ⟨h1, h2, h3, h4, h5⟩ := ih (candEnd - bS) s e h
        exact ⟨h1, h2, by omega, h4, h5⟩
      · rw [if_neg hov] at h
        obtain ⟨rfl, rfl⟩ : candEnd - bS = s ∧ candEnd = e := by
          have := Option.some.inj h
          exact ⟨congrArg Prod.fst this, congrArg Prod.snd this⟩
        rw [Bool.or_eq_true] at hov
        push_neg at hov
        refine ⟨by omega, hge, le_refl _, ?_, ?_⟩
        · exact Bool.not_eq_true _ ▸ (Bool.eq_false_iff.mpr hov.1)
        · exact Bool.eq_false_iff.mpr hov.2
    · rw [if_neg hge] at h
      cases h

/-- Helper: a slot returned for a day lies entirely within that day and
avoids all intervals already scheduled on it. -/
theorem tryWindows_spec (d : Int) (sched : DaySched) (bm : Nat) (dmEx : Bool) :
    ∀ ws s e, tryWindows d sched bm dmEx ws = some (s, e) →
      e = s + (bm : Int) * 60 ∧ d * secPerDay ≤ s ∧ e ≤ d * secPerDay + 86399 ∧
        anyOverlapB s e sched = false ∧ dmEx = false := by
  intro ws
  induction ws with
  | nil => intro s e h; simp [tryWindows] at h
  | cons w rest ih =>
    intro s e h
    simp only [tryWindows] at h
    cases hfit : tryFit (d * secPerDay + (w.wstart : Int)) ((bm : Int) * 60) sched dmEx 48
        (d * secPerDay + min (w.wend : Int) 86399) with
    | some slot =>
      rw [hfit] at h
      have hslot : slot = (s, e) := Option.some.inj h
      subst hslot
      obtain ⟨h1, h2, h3, h4, h5⟩ := tryFit_spec _ _ sched dmEx
        (by positivity) 48 _ s e hfit
      refine ⟨h1, ?_, ?_, h4, h5⟩
      · have : (0 : Int) ≤ (w.wstart : Int) := Int.ofNat_nonneg _
        omega
      · have : min (w.wend : Int) 86399 ≤ 86399 := min_le_right _ _
        omega
    | none =>
      rw [hfit] at h
      exact ih s e h

/-- Helper: a slot returned by the backward day walk lies within some single
day `dd` and avoids everything scheduled on `dd`. -/
theorem findSlotFrom_spec (wBy : Nat → List Window) (onDay : Int → DaySched)
    (bm : Nat) (dmax : Option Int) :
    ∀ remaining dstart s e,
      findSlotFrom wBy onDay bm dmax dstart remaining = some (s, e) →
      ∃ dd, e = s + (bm : Int) * 60 ∧ dd * secPerDay ≤ s ∧ e ≤ dd * secPerDay + 86399 ∧
        anyOverlapB s e (onDay dd) = false := by
  intro remaining
  induction remaining with
  | zero => intro dstart s e h; simp [findSlotFrom] at h
  | succ n ih =>
    intro dstart s e h
    simp only [findSlotFrom] at h
    cases hw : tryWindows dstart (onDay dstart) bm
        (dailyExceeded dmax (onDay dstart) (bm : Int)) ((wBy (weekdayOf dstart)).reverse) with
    | some slot =>
      rw [hw] at h
      have hslot : slot = (s, e) := Option.some.inj h
      subst hslot
      obtain ⟨h1, h2, h3, h4, _⟩ := tryWindows_spec dstart _ bm _ _ s e hw
      exact ⟨dstart, h1, h2, h3, h4⟩
    | none =>
      rw [hw] at h
      exact ih (dstart - 1) s e h

/-- Helper: a timestamp within a day's bounds has that calendar day. -/
theorem dayOf_eq_of_bounds (d s : Int) (h1 : d * 86400 ≤ s) (h2 : s < (d + 1) * 86400) :
    dayOf s = d := by
  unfold dayOf secPerDay
  rw [Int.fdiv_eq_ediv _ (by norm_num)]
  have hs : s = (s - d * 86400) + d * 86400 := by ring
  rw [hs, Int.add_mul_ediv_right _ _ (by norm_num : (86400:Int) ≠ 0)]
  rw [Int.ediv_eq_zero_of_lt (by omega) (by omega)]
  omega

/-- Helper: `find_slot_for_block` returns an interval of the requested
length that avoids every interval scheduled on its own start day. -/
theorem findSlotForBlock_spec (wBy : Nat → List Window) (onDay : Int → DaySched)
    (target : Int) (bm : Nat) (dmax : Option Int) (s e : Int)
    (h : findSlotForBlock wBy onDay target bm dmax = some (s, e)) :
    e = s + (bm : Int) * 60 ∧ anyOverlapB s e (onDay (dayOf s)) = false := by
  obtain ⟨dd, h1, h2, h3, h4⟩ := findSlotFrom_spec wBy onDay bm dmax 31 target s e h
  simp only [secPerDay] at h2 h3
  have hday : dayOf s = dd := by
    refine dayOf_eq_of_bounds dd s h2 ?_
    have hbm : (0 : Int) ≤ (bm : Int) * 60 := by positivity
    omega
  rw [hday]
  exact ⟨h1, h4⟩



/-- Helper: appending a block keeps the per-day map in sync with the output
list. -/
theorem addBlock_daysTrack (st : PlanState) (b : SBlock) (h : daysTrack st) :
    daysTrack (addBlock st b) := by
  intro dd
  show (if dd = dayOf b.bstart then st.onDay dd ++ [(b.bstart, b.bend)] else st.onDay dd) = _
  show _ = ((st.scheduled ++ [b]).filter (fun x => dayOf x.bstart == dd)).map ivOf
  rw [List.filter_append, List.map_append, ← h dd]
  by_cases hd : dd = dayOf b.bstart
  · rw [if_pos hd]
    have : (dayOf b.bstart == dd) = true := by simp [hd]
    simp [List.filter, this, ivOf]
  · rw [if_neg hd]
    have : (dayOf b.bstart == dd) = false := by
      simp only [beq_eq_false_iff_ne]
      exact fun hx => hd hx.symm
    simp [List.filter, this]

/-- Helper: a negative overlap scan yields pairwise disjointness with every
scheduled interval of the day. -/
theorem anyOverlapB_false_disjoint (s e : Int) (sched : DaySched)
    (h : anyOverlapB s e sched = false) :
    ∀ iv ∈ sched, disjointIv iv (s, e) := by
  intro iv hiv
  unfold anyOverlapB at h
  rw [List.any_eq_false] at h
  have := h iv hiv
  unfold overlapsB at this
  simp only [Bool.not_eq_true', Bool.not_eq_false, Bool.or_eq_true, decide_eq_true_eq] at this
  unfold disjointIv
  rcases this with h1 | h1
  · exact Or.inr h1
  · exact Or.inl h1

/-- Helper: appending a block whose interval passed the overlap scan keeps
every per-day list pairwise non-overlapping. -/
theorem addBlock_noOverlap (st : PlanState) (b : SBlock)
    (hn : noOverlapDays st)
    (hfree : anyOverlapB b.bstart b.bend (st.onDay (dayOf b.bstart)) = false) :
    noOverlapDays (addBlock st b) := by
  intro dd
  show List.Pairwise disjointIv
    (if dd = dayOf b.bstart then st.onDay dd ++ [(b.bstart, b.bend)] else st.onDay dd)
  by_cases hd : dd = dayOf b.bstart
  · rw [if_pos hd]
    rw [List.pairwise_append]
    refine ⟨hn dd, List.pairwise_singleton _ _, ?_⟩
    intro x hx y hy
    have hy' : y = (b.bstart, b.bend) := by simpa using hy
    subst hy'
    exact anyOverlapB_false_disjoint _ _ _ (hd ▸ hfree) x hx
  · rw [if_neg hd]
    exact hn dd

/-- Helper: one placement appends one block, and a non-fallback block passed
the overlap scan against its start day. -/
theorem placeOne_cases (wBy : Nat → List Window) (dailyMax : Option Int)
    (st : PlanState) (a : TAssignment) (due : Int) (nb i tbm : Nat) :
    ∃ b : SBlock, placeOne wBy dailyMax st a due nb i tbm = addBlock st b ∧
      (b.viaFallback = false →
        anyOverlapB b.bstart b.bend (st.onDay (dayOf b.bstart)) = false) := by
  unfold placeOne
  cases hslot : findSlotForBlock wBy st.onDay due tbm dailyMax with
  | some slot =>
    cases slot with
    | mk s e =>
      refine ⟨_, rfl, fun _ => ?_⟩
      exact (findSlotForBlock_spec wBy st.onDay due tbm dailyMax s e hslot).2
  | none =>
    refine ⟨_, rfl, fun hfb => ?_⟩
    cases hfb

/-- Helper: one placement preserves both invariants provided its result
contains no fallback block. -/
theorem placeOne_inv (wBy : Nat → List Window) (dailyMax : Option Int)
    (st : PlanState) (a : TAssignment) (due : Int) (nb i tbm : Nat)
    (ht : daysTrack st) (hn : noOverlapDays st)
    (hfb : ∀ b ∈ (placeOne wBy dailyMax st a due nb i tbm).scheduled,
      b.viaFallback = false) :
    daysTrack (placeOne wBy dailyMax st a due nb i tbm) ∧
      noOverlapDays (placeOne wBy dailyMax st a due nb i tbm) := by
  obtain ⟨b, hb, hbcond⟩ := placeOne_cases wBy dailyMax st a due nb i tbm
  rw [hb] at hfb ⊢
  have hbmem : b ∈ (addBlock st b).scheduled := by
    show b ∈ st.scheduled ++ [b]
    simp
  have hbfb : b.viaFallback = false := hfb b hbmem
  exact ⟨addBlock_daysTrack st b ht, addBlock_noOverlap st b hn (hbcond hbfb)⟩

/-- Helper: the per-assignment placement loop preserves both invariants
provided its result contains no fallback block. -/
theorem placeLoop_inv (wBy : Nat → List Window) (dailyMax : Option Int)
    (a : TAssignment) (due : Int) (nb tbm : Nat) :
    ∀ k st, daysTrack st → noOverlapDays st →
      (∀ b ∈ (placeLoop wBy dailyMax a due nb tbm k st).scheduled, b.viaFallback = false) →
      daysTrack (placeLoop wBy dailyMax a due nb tbm k st) ∧
        noOverlapDays (placeLoop wBy dailyMax a due nb tbm k st) := by
  intro k
  induction k with
  | zero => intro st ht hn _; exact ⟨ht, hn⟩
  | succ n ih =>
    intro st ht hn hfb
    rw [placeLoop] at hfb ⊢
    set st1 := placeOne wBy dailyMax st a due nb (nb - (n + 1)) tbm with hst1
    have hsub : ∀ b ∈ st1.scheduled, b.viaFallback = false := by
      intro b hbmem
      obtain ⟨bs, hbs, _, _⟩ := placeLoop_scheduled wBy dailyMax a due nb tbm n st1
      exact hfb b (by rw [hbs]; exact List.mem_append.mpr (Or.inl hbmem))
    obtain ⟨ht1, hn1⟩ := placeOne_inv wBy dailyMax st a due nb (nb - (n + 1)) tbm ht hn hsub
    exact ih st1 ht1 hn1 hfb



/-- Helper: processing one assignment only appends to the output list. -/
theorem processAssignment_scheduled (wBy : Nat → List Window) (dailyMax : Option Int)
    (includeShort : Bool) (lowTh : Int) (shortMin bm maxB : Nat) (today : Int)
    (st : PlanState) (p : Int × TAssignment) :
    ∃ bs, (processAssignment wBy dailyMax includeShort lowTh shortMin bm maxB today st p).scheduled
      = st.scheduled ++ bs := by
  unfold processAssignment
  by_cases hc : (isQuizA p.2 && pointsLE p.2 lowTh && !includeShort) = true
  · rw [if_pos hc]
    exact ⟨[], by simp⟩
  · rw [if_neg hc]
    obtain ⟨bs, hbs, _, _⟩ := placeLoop_scheduled wBy dailyMax p.2 p.1
      (nBlocksFor p.2 p.1 today bm maxB)
      (if isQuizA p.2 && pointsLE p.2 lowTh && includeShort then shortMin else bm)
      (nBlocksFor p.2 p.1 today bm maxB) st
    exact ⟨bs, hbs⟩

/-- Helper: processing one assignment preserves both invariants provided the
result contains no fallback block. -/
theorem processAssignment_inv (wBy : Nat → List Window) (dailyMax : Option Int)
    (includeShort : Bool) (lowTh : Int) (shortMin bm maxB : Nat) (today : Int)
    (st : PlanState) (p : Int × TAssignment)
    (ht : daysTrack st) (hn : noOverlapDays st)
    (hfb : ∀ b ∈ (processAssignment wBy dailyMax includeShort lowTh shortMin bm maxB
      today st p).scheduled, b.viaFallback = false) :
    daysTrack (processAssignment wBy dailyMax includeShort lowTh shortMin bm maxB today st p)
      ∧ noOverlapDays (processAssignment wBy dailyMax includeShort lowTh shortMin bm maxB
          today st p) := by
  unfold processAssignment at hfb ⊢
  by_cases hc : (isQuizA p.2 && pointsLE p.2 lowTh && !includeShort) = true
  · rw [if_pos hc]
    exact ⟨ht, hn⟩
  · rw [if_neg hc] at hfb ⊢
    exact placeLoop_inv wBy dailyMax p.2 p.1 _ _ _ st ht hn hfb

/-- Helper: the main loop only appends to the output list. -/
theorem foldl_scheduled (wBy : Nat → List Window) (dailyMax : Option Int)
    (includeShort : Bool) (lowTh : Int) (shortMin bm maxB : Nat) (today : Int) :
    ∀ (ps : List (Int × TAssignment)) (st : PlanState),
      ∃ bs, (ps.foldl (processAssignment wBy dailyMax includeShort lowTh shortMin bm maxB today)
        st).scheduled = st.scheduled ++ bs := by
  intro ps
  induction ps with
  | nil => intro st; exact ⟨[], by simp⟩
  | cons p rest ih =>
    intro st
    obtain ⟨bs1, hbs1⟩ := processAssignment_scheduled wBy dailyMax includeShort lowTh
      shortMin bm maxB today st p
    obtain ⟨bs2, hbs2⟩ := ih
      (processAssignment wBy dailyMax includeShort lowTh shortMin bm maxB today st p)
    exact ⟨bs1 ++ bs2, by rw [List.foldl_cons, hbs2, hbs1, List.append_assoc]⟩

/-- Helper: the main loop preserves both invariants provided the final
output contains no fallback block. -/
theorem foldl_inv (wBy : Nat → List Window) (dailyMax : Option Int)
    (includeShort : Bool) (lowTh : Int) (shortMin bm maxB : Nat) (today : Int) :
    ∀ (ps : List (Int × TAssignment)) (st : PlanState),
      daysTrack st → noOverlapDays st →
      (∀ b ∈ (ps.foldl (processAssignment wBy dailyMax includeShort lowTh shortMin bm maxB
        today) st).scheduled, b.viaFallback = false) →
      daysTrack (ps.foldl (processAssignment wBy dailyMax includeShort lowTh shortMin bm
        maxB today) st)
        ∧ noOverlapDays (ps.foldl (processAssignment wBy dailyMax includeShort lowTh
            shortMin bm maxB today) st) := by
  intro ps
  induction ps with
  | nil => intro st ht hn _; exact ⟨ht, hn⟩
  | cons p rest ih =>
    intro st ht hn hfb
    rw [List.foldl_cons] at hfb ⊢
    set st1 := processAssignment wBy dailyMax includeShort lowTh shortMin bm maxB today st p
      with hst1
    have hsub : ∀ b ∈ st1.scheduled, b.viaFallback = false := by
      intro b hbmem
      obtain ⟨bs, hbs⟩ := foldl_scheduled wBy dailyMax includeShort lowTh shortMin bm maxB
        today rest st1
      exact hfb b (by rw [hbs]; exact List.mem_append.mpr (Or.inl hbmem))
    obtain ⟨ht1, hn1⟩ := processAssignment_inv wBy dailyMax includeShort lowTh shortMin bm
      maxB today st p ht hn hsub
    exact ih st1 ht1 hn1 hfb

/-- Helper: per-day pairwise disjointness of the tracked intervals yields
the same-day no-overlap property on the output list itself. -/
theorem pairwise_filtered (l : List SBlock)
    (h : ∀ dd : Int, ((l.filter (fun b => dayOf b.bstart == dd)).map ivOf).Pairwise disjointIv) :
    l.Pairwise (fun b1 b2 =>
      dayOf b1.bstart = dayOf b2.bstart → disjointIv (ivOf b1) (ivOf b2)) := by
  induction l with
  | nil => exact List.Pairwise.nil
  | cons b t ih =>
    refine List.Pairwise.cons ?_ (ih ?_)
    · intro y hy heq
      have hbd := h (dayOf b.bstart)
      have hbeq : (dayOf b.bstart == dayOf b.bstart) = true := by simp
      rw [List.filter_cons, if_pos hbeq] at hbd
      rw [List.map_cons] at hbd
      apply List.rel_of_pairwise_cons hbd
      refine List.mem_map.mpr ⟨y, ?_, rfl⟩
      refine List.mem_filter.mpr ⟨hy, ?_⟩
      simp [heq]
    · intro dd
      have hdd := h dd
      rw [List.filter_cons] at hdd
      by_cases hcase : (dayOf b.bstart == dd) = true
      · rw [if_pos hcase, List.map_cons] at hdd
        exact hdd.of_cons
      · rw [if_neg hcase] at hdd
        exact hdd

/-- C1.  No-overlap invariant: in any run of `schedule_blocks` in which no
block was placed by the fallback path, any two distinct blocks whose start
timestamps fall on the same calendar day have disjoint `[start, end)`
intervals. -/
theorem schedule_blocks_no_overlap (assignments : List TAssignment)
    (wBy : Nat → List Window) (today : Int) (blockMinutes : Nat) (dailyMax : Option Int)
    (includeShort : Bool) (lowTh : Int) (shortMin maxB : Nat)
    (hnofb : ∀ b ∈ scheduleBlocks assignments wBy today blockMinutes dailyMax includeShort
      lowTh shortMin maxB, b.viaFallback = false) :
    (scheduleBlocks assignments wBy today blockMinutes dailyMax includeShort lowTh shortMin
      maxB).Pairwise (fun b1 b2 =>
        dayOf b1.bstart = dayOf b2.bstart → disjointIv (ivOf b1) (ivOf b2)) := by
  unfold scheduleBlocks at hnofb ⊢
  have hinit : daysTrack (⟨[], fun _ => []⟩ : PlanState) := fun dd => rfl
  have hinit2 : noOverlapDays (⟨[], fun _ => []⟩ : PlanState) := fun dd => List.Pairwise.nil
  obtain ⟨ht, hn⟩ := foldl_inv wBy dailyMax includeShort lowTh shortMin blockMinutes maxB
    today (sortByDue (filterAssignments assignments today)) ⟨[], fun _ => []⟩
    hinit hinit2 hnofb
  apply pairwise_filtered
  intro dd
  rw [← ht dd]
  exact hn dd

/-- Witness for C1: a concrete run (one 180-minute assignment due on a
Friday with a single 18:00-21:00 window) places two non-fallback blocks on
the same day; the invariant holds for it. -/
theorem schedule_blocks_no_overlap_witness :
    (∀ b ∈ scheduleBlocks
      [⟨"Essay", "", "", none, some (4 * 86400 + 3600), none, none, false, [], some 100,
        some 180, "C1", "u"⟩]
      (fun wd => if wd = 4 then [⟨64800, 75600⟩] else []) 0 90 none false 10 15 4,
      b.viaFallback = false) ∧
    (scheduleBlocks
      [⟨"Essay", "", "", none, some (4 * 86400 + 3600), none, none, false, [], some 100,
        some 180, "C1", "u"⟩]
      (fun wd => if wd = 4 then [⟨64800, 75600⟩] else []) 0 90 none false 10 15
      4).Pairwise (fun b1 b2 =>
        dayOf b1.bstart = dayOf b2.bstart → disjointIv (ivOf b1) (ivOf b2)) :=
  ⟨by decide,
   schedule_blocks_no_overlap _ _ 0 90 none false 10 15 4 (by decide)⟩

end NotionSync
